import Mathlib
/-!
Verification of the genie-flow-invoker-weaviate core: filter compilation,
query parameter compilation, parent-strategy application, result reassembly
and document persistence, shallowly embedded from the Python sources under
src/src/genie_flow_invoker/invoker/weaviate.
-/
/-- A JSON-like value, standing for the Python values that flow through
filters and metadata mappings. -/
inductive JValue where
  | str (s : String)
  | int (n : Int)
  | bool (b : Bool)
  | arr (items : List JValue)
  | obj (entries : List (String × JValue))

/-- A metadata mapping, standing for the Python dict stored under
document_metadata. -/
abbrev Meta := List (String × JValue)

/-- The errors raised by the embedded code. Each constructor corresponds to a
Python exception site: ValueError for a missing collection name, ValueError
for an unsupported filter indicator, KeyError on a dict subscript,
TypeError when subscripting None, IndexError on an empty list, and the
KeyError raised for a missing tenant in persist_document. -/
inductive WErr where
  | missingCollectionName
  | invalidFilter (indicator : String)
  | keyErrorParams (key : String)
  | keyErrorRef (key : String)
  | keyErrorVector (key : String)
  | typeErrorNone
  | indexError
  | keyErrorTenant (tenant : String)
  | valueErrorCollectionRequired
deriving DecidableEq, Repr

/-- The comparison operators of the weaviate filter leaves, one per
Filter.by_property method used in the sources. -/
inductive FilterOp where
  | equal
  | notEqual
  | lessThan
  | lessOrEqual
  | greaterThan
  | greaterOrEqual
  | containsAny
deriving DecidableEq, Repr

/-- The weaviate filter tree: leaf comparisons, Filter.all_of conjunctions
and Filter.any_of disjunctions. The library operator a AND b builds the
same shape as all_of applied to the two-element list, which is how the
repository test suite observes it. -/
inductive FilterExpr (V : Type) where
  | leaf (attr : String) (op : FilterOp) (value : V)
  | all_of (filters : List (FilterExpr V))
  | any_of (filters : List (FilterExpr V))

/-- Python key.rsplit applied once on a space: returns the part before the
last space and the part after it, or none when the string holds no space. -/
def rsplit1 (s : String) : Option (String × String) :=
  let r := s.data.reverse
  let tok := r.takeWhile (fun c => c ≠ ' ')
  match r.dropWhile (fun c => c ≠ ' ') with
  | [] => none
  | _ :: before => some (String.mk before.reverse, String.mk tok.reverse)

/-- Embeds _create_attribute_filter from utils.py: the implicit indicator for
a key without a space is the token consisting of two equal signs, and the
match on the indicator is the chain of string comparisons below. -/
def create_attribute_filter_u {V : Type} (key : String) (value : V) :
    Except WErr (FilterExpr V) :=
  let (key_name, indicator) :=
    match rsplit1 key with
    | some (n, t) => (n, t)
    | none => (key, "==")
  if indicator = "==" then .ok (.leaf key_name .equal value)
  else if indicator = "!=" then .ok (.leaf key_name .notEqual value)
  else if indicator = "<" then .ok (.leaf key_name .lessThan value)
  else if indicator = "<=" then .ok (.leaf key_name .lessOrEqual value)
  else if indicator = ">" then .ok (.leaf key_name .greaterThan value)
  else if indicator = ">=" then .ok (.leaf key_name .greaterOrEqual value)
  else if indicator = "@" then .ok (.leaf key_name .containsAny value)
  else .error (.invalidFilter indicator)

/-- Embeds _create_attribute_filter from search.py: identical to the utils.py
variant except that the equality indicator is the single equal sign, which
is also the implicit indicator for a key without a space. -/
def create_attribute_filter_s {V : Type} (key : String) (value : V) :
    Except WErr (FilterExpr V) :=
  let (key_name, indicator) :=
    match rsplit1 key with
    | some (n, t) => (n, t)
    | none => (key, "=")
  if indicator = "=" then .ok (.leaf key_name .equal value)
  else if indicator = "!=" then .ok (.leaf key_name .notEqual value)
  else if indicator = "<" then .ok (.leaf key_name .lessThan value)
  else if indicator = "<=" then .ok (.leaf key_name .lessOrEqual value)
  else if indicator = ">" then .ok (.leaf key_name .greaterThan value)
  else if indicator = ">=" then .ok (.leaf key_name .greaterOrEqual value)
  else if indicator = "@" then .ok (.leaf key_name .containsAny value)
  else .error (.invalidFilter indicator)

/-- The list comprehension building one attribute filter per mapping item, in
mapping order, propagating the first error. -/
def compileLeaves {V : Type} (caf : String → V → Except WErr (FilterExpr V)) :
    List (String × V) → Except WErr (List (FilterExpr V))
  | [] => .ok []
  | kv :: rest =>
    match caf kv.1 kv.2 with
    | .error e => .error e
    | .ok f =>
      match compileLeaves caf rest with
      | .error e => .error e
      | .ok fs => .ok (f :: fs)

/-- The two entries of the query_params dict that compile_filter subscripts.
The outer Option records whether the key is present at all (a missing key
makes the subscript raise KeyError); the inner Option is the value, which
may be None. -/
structure FilterParams (V : Type) where
  having_all : Option (Option (List (String × V)))
  having_any : Option (Option (List (String × V)))

/-- A Python dict subscript: KeyError when the key is absent. -/
def dictGet {α : Type} (key : String) : Option α → Except WErr α
  | none => .error (.keyErrorParams key)
  | some v => .ok v

/-- Embeds compile_filter (identical in utils.py and search.py up to the
_create_attribute_filter variant used, which is passed as caf): an all_of
over the having_all items, an any_of over the having_any items, combined
with the library AND operator when both are built. -/
def compile_filter {V : Type} (caf : String → V → Except WErr (FilterExpr V))
    (query_params : FilterParams V) : Except WErr (Option (FilterExpr V)) :=
  match dictGet "having_all" query_params.having_all with
  | .error e => .error e
  | .ok ha =>
    match ((match ha with
            | some m =>
              match compileLeaves caf m with
              | .error e => .error e
              | .ok fs => .ok (some (FilterExpr.all_of fs))
            | none => .ok none) : Except WErr (Option (FilterExpr V))) with
    | .error e => .error e
    | .ok query_filter =>
      match dictGet "having_any" query_params.having_any with
      | .error e => .error e
      | .ok hy =>
        match hy with
        | some m =>
          match compileLeaves caf m with
          | .error e => .error e
          | .ok fs =>
            let any_filter := FilterExpr.any_of fs
            .ok (some (match query_filter with
              | some qf => FilterExpr.all_of [qf, any_filter]
              | none => any_filter))
        | none => .ok query_filter

/-- The utils.py filter compiler. -/
def compile_filter_u {V : Type} : FilterParams V → Except WErr (Option (FilterExpr V)) :=
  compile_filter create_attribute_filter_u

/-- The search.py filter compiler. -/
def compile_filter_s {V : Type} : FilterParams V → Except WErr (Option (FilterExpr V)) :=
  compile_filter create_attribute_filter_s

/-- The operator token of a filter key: the substring after the last space,
or the given implicit token when the key holds no space. -/
def keyToken (implicit : String) (key : String) : String :=
  match rsplit1 key with
  | some (_, t) => t
  | none => implicit

/-- The attribute name of a filter key: the substring before the last space,
or the whole key when it holds no space. -/
def keyAttrName (key : String) : String :=
  match rsplit1 key with
  | some (n, _) => n
  | none => key

/-- The operator table of the utils.py variant: two equal signs mean equal,
a single equal sign is not recognised. -/
def tokenOpU (tok : String) : Except WErr FilterOp :=
  if tok = "==" then .ok .equal
  else if tok = "!=" then .ok .notEqual
  else if tok = "<" then .ok .lessThan
  else if tok = "<=" then .ok .lessOrEqual
  else if tok = ">" then .ok .greaterThan
  else if tok = ">=" then .ok .greaterOrEqual
  else if tok = "@" then .ok .containsAny
  else .error (.invalidFilter tok)

/-- The operator table of the search.py variant: a single equal sign means
equal, two equal signs are not recognised. -/
def tokenOpS (tok : String) : Except WErr FilterOp :=
  if tok = "=" then .ok .equal
  else if tok = "!=" then .ok .notEqual
  else if tok = "<" then .ok .lessThan
  else if tok = "<=" then .ok .lessOrEqual
  else if tok = ">" then .ok .greaterThan
  else if tok = ">=" then .ok .greaterOrEqual
  else if tok = "@" then .ok .containsAny
  else .error (.invalidFilter tok)

/-- Modelled from the spec: a DocumentChunk of the upstream doc_proc package,
with the fields the weaviate invoker reads — chunk_id, content,
original_span as a pair of offsets, hierarchy_level, an optional parent_id
and an optional embedding vector. Embedding entries are abstracted to Int
since the code never computes with them. -/
structure DocumentChunk where
  chunk_id : String
  content : String
  original_span : Int × Int
  hierarchy_level : Int
  parent_id : Option String
  embedding : Option (List Int)

/-- Modelled from the spec: a ChunkedDocument of the upstream doc_proc
package — a filename, a nested metadata mapping and an ordered chunk
sequence. -/
structure ChunkedDocument where
  filename : String
  document_metadata : Meta
  chunks : List DocumentChunk

/-- The fixed property schema persisted with every chunk, per
_compile_properties in persist.py and read back by
compile_chunked_documents in search.py. -/
structure PropRecord where
  filename : String
  content : String
  original_span_start : Int
  original_span_end : Int
  hierarchy_level : Int
  document_metadata : Meta

/-- A weaviate result Object: identifier, property record, an optional
references mapping from relation name to referenced objects (None models
the Python None, an empty list models an empty dict) and an optional
per-named-vector embedding map. -/
inductive WObject where
  | mk (uuid : String) (properties : PropRecord)
       (references : Option (List (String × List WObject)))
       (vector : Option (List (String × List Int)))

def WObject.uuid : WObject → String
  | .mk u _ _ _ => u

def WObject.properties : WObject → PropRecord
  | .mk _ p _ _ => p

def WObject.references : WObject → Option (List (String × List WObject))
  | .mk _ _ r _ => r

def WObject.vector : WObject → Option (List (String × List Int))
  | .mk _ _ _ v => v

/-- The expression child.references parent-subscript used by
apply_parent_strategy: TypeError when references is None, KeyError when
the mapping lacks the parent key. -/
def getParents (o : WObject) : Except WErr (List WObject) :=
  match o.references with
  | none => .error .typeErrorNone
  | some refs =>
    match refs.lookup "parent" with
    | none => .error (.keyErrorRef "parent")
    | some ps => .ok ps

/-- The inner loop shared by both branches of apply_parent_strategy: walk the
parents of one child, appending each parent whose uuid was not seen yet
and recording it as seen. -/
def addParents (seen : List String) (acc : List WObject) :
    List WObject → List String × List WObject
  | [] => (seen, acc)
  | p :: ps =>
    if seen.contains p.uuid then addParents seen acc ps
    else addParents (p.uuid :: seen) (acc ++ [p]) ps

/-- The replace branch of apply_parent_strategy: only the deduplicated
parents are kept, in first-seen order. -/
def replaceParents (seen : List String) (parents : List WObject) :
    List WObject → Except WErr (List WObject)
  | [] => .ok parents
  | child :: rest =>
    match getParents child with
    | .error e => .error e
    | .ok ps =>
      let sp := addParents seen parents ps
      replaceParents sp.1 sp.2 rest

/-- The include branch of apply_parent_strategy: every child is kept and its
not-yet-seen parents are appended right after it. -/
def includeParents (seen : List String) (combined : List WObject) :
    List WObject → Except WErr (List WObject)
  | [] => .ok combined
  | child :: rest =>
    match getParents child with
    | .error e => .error e
    | .ok ps =>
      let sp := addParents seen (combined ++ [child]) ps
      includeParents sp.1 sp.2 rest

/-- Embeds AbstractSearcher.apply_parent_strategy from search.py, after the
strategy has been resolved from base configuration and kwargs: None
returns the results unchanged, the replace strategy keeps only the
deduplicated parents, and any other strategy interleaves parents after
their children. -/
def apply_parent_strategy (parent_strategy : Option String)
    (query_results : List WObject) : Except WErr (List WObject) :=
  match parent_strategy with
  | none => .ok query_results
  | some s =>
    if s = "replace" then replaceParents [] [] query_results
    else includeParents [] [] query_results

/-- Collects the parent list of every result, in order, propagating the first
subscript error; replaceParents and includeParents fail exactly when this
fails. -/
def parentsOf : List WObject → Except WErr (List (List WObject))
  | [] => .ok []
  | c :: cs =>
    match getParents c with
    | .error e => .error e
    | .ok ps =>
      match parentsOf cs with
      | .error e => .error e
      | .ok pss => .ok (ps :: pss)

/-- First-seen deduplication keyed by a string key, relative to a set of
already-seen keys: the order of surviving elements is the order of their
first occurrence. -/
def firstSeenBy {α : Type} (key : α → String) (seen : List String) :
    List α → List α
  | [] => []
  | x :: xs =>
    if seen.contains (key x) then firstSeenBy key seen xs
    else x :: firstSeenBy key (key x :: seen) xs

/-- The seen set after walking a list with firstSeenBy. -/
def seenAfterBy {α : Type} (key : α → String) (seen : List String) :
    List α → List String
  | [] => seen
  | x :: xs =>
    if seen.contains (key x) then seenAfterBy key seen xs
    else seenAfterBy key (key x :: seen) xs

/-- The chunk built from one result Object by compile_chunked_documents:
parent_id is the uuid of the first parent reference when the references
mapping is truthy (not None and not empty), the embedding is looked up in
the named-vector map when vector data is present. -/
def mkChunk (named_vector : String) (o : WObject) : Except WErr DocumentChunk :=
  match (match o.references with
         | none => .ok none
         | some refs =>
           if refs.isEmpty then .ok none
           else
             match refs.lookup "parent" with
             | none => .error (.keyErrorRef "parent")
             | some ps =>
               match ps with
               | [] => .error .indexError
               | p :: _ => .ok (some p.uuid) : Except WErr (Option String)) with
  | .error e => .error e
  | .ok pid =>
    match (match o.vector with
           | none => .ok none
           | some vm =>
             match vm.lookup named_vector with
             | none => .error (.keyErrorVector named_vector)
             | some v => .ok (some v) : Except WErr (Option (List Int))) with
    | .error e => .error e
    | .ok emb =>
      .ok { chunk_id := o.uuid,
            content := o.properties.content,
            original_span := (o.properties.original_span_start,
                              o.properties.original_span_end),
            hierarchy_level := o.properties.hierarchy_level,
            parent_id := pid,
            embedding := emb }

/-- The chunks of a result list, in order, propagating the first error; this
is the sequence of DocumentChunk values compile_chunked_documents builds. -/
def chunksOf (named_vector : String) : List WObject → Except WErr (List DocumentChunk)
  | [] => .ok []
  | o :: os =>
    match mkChunk named_vector o with
    | .error e => .error e
    | .ok c =>
      match chunksOf named_vector os with
      | .error e => .error e
      | .ok cs => .ok (c :: cs)

/-- One step of the document index of compile_chunked_documents: append the
chunk to the document already registered under the filename, or register a
new document carrying the metadata of this first result. -/
def addChunkToDocs (idx : List ChunkedDocument) (f : String) (md : Meta)
    (c : DocumentChunk) : List ChunkedDocument :=
  if idx.any (fun d => d.filename = f) then
    idx.map (fun d => if d.filename = f then { d with chunks := d.chunks ++ [c] } else d)
  else
    idx ++ [{ filename := f, document_metadata := md, chunks := [c] }]

/-- The result loop of compile_chunked_documents over the ordered query
results, threading the document index. -/
def compileDocsGo (named_vector : String) :
    List WObject → List ChunkedDocument → Except WErr (List ChunkedDocument)
  | [], idx => .ok idx
  | o :: os, idx =>
    match mkChunk named_vector o with
    | .error e => .error e
    | .ok c =>
      compileDocsGo named_vector os
        (addChunkToDocs idx o.properties.filename o.properties.document_metadata c)

/-- Embeds compile_chunked_documents from search.py: fold the results into an
insertion-ordered index of ChunkedDocument keyed by filename and return
its values. -/
def compile_chunked_documents (query_results : List WObject)
    (named_vector : String) : Except WErr (List ChunkedDocument) :=
  compileDocsGo named_vector query_results []

/-- The merged query parameter dict of AbstractSearcher.create_query_params,
after the base configuration has been updated with the call kwargs. The
having keys are always present in the base dict, possibly None. The limit
and distance numbers play no role in the compiled shape and are carried
opaquely. -/
structure SearchParams where
  collection_name : Option String
  tenant_name : Option String
  parent_strategy : Option String
  operation_level : Option Int
  having_all : Option (List (String × JValue))
  having_any : Option (List (String × JValue))
  vector_name : Option String
  include_vector : Bool
  limit : Option Int
  distance : Option Int

/-- The weaviate-facing parts of the compiled query parameter dict:
the resolved names, the target vector, the compiled filter and the
requested reference expansions given by their link_on relation names. -/
structure CompiledQuery where
  collection_name : String
  tenant_name : Option String
  target_vector : String
  qfilter : Option (FilterExpr JValue)
  return_references : Option (List String)

/-- Embeds _calculate_operation_level from search.py: the aggregate maximum
of the hierarchy_level property, as reported by the backend, plus the
configured negative level plus one. -/
def calculate_operation_level (aggregate_maximum : Int) (operation_level : Int) : Int :=
  aggregate_maximum + operation_level + 1

/-- Embeds AbstractSearcher.create_query_params from search.py over the
merged parameters: reject a missing or empty collection name, resolve the
target vector name, compile the filter with the search.py variant, request
the parent_id reference expansion when a parent strategy is configured,
and restrict to the resolved hierarchy level when one is configured. The
aggregate_maximum argument stands for the backend aggregate query issued
for negative levels. -/
def create_query_params (query_params : SearchParams) (aggregate_maximum : Int) :
    Except WErr CompiledQuery :=
  match ((match query_params.collection_name with
          | none => .error WErr.missingCollectionName
          | some s => if s = "" then .error .missingCollectionName else .ok s) :
         Except WErr String) with
  | .error e => .error e
  | .ok collection_name =>
    let target_vector :=
      match query_params.vector_name with
      | some s => if s = "" then "default" else s
      | none => "default"
    match compile_filter_s ⟨some query_params.having_all, some query_params.having_any⟩ with
    | .error e => .error e
    | .ok f0 =>
      let return_references :=
        if query_params.parent_strategy.isSome then some ["parent_id"] else none
      let qfilter :=
        match query_params.operation_level with
        | none => f0
        | some lvl =>
          let ol := if lvl < 0 then calculate_operation_level aggregate_maximum lvl
                    else lvl
          let hierarchy_filter :=
            FilterExpr.leaf "hierarchy_level" .equal (JValue.int ol)
          some (match f0 with
                | some f => .all_of [f, hierarchy_filter]
                | none => hierarchy_filter)
      .ok { collection_name := collection_name,
            tenant_name := query_params.tenant_name,
            target_vector := target_vector,
            qfilter := qfilter,
            return_references := return_references }

/-- A reference property of the collection schema. -/
structure ReferenceProperty where
  name : String
  target_collection : String

/-- Embeds _compile_cross_references from persist.py: the schema defines a
single self-referencing cross-reference named parent. -/
def compile_cross_references (collection_name : String) : List ReferenceProperty :=
  [{ name := "parent", target_collection := collection_name }]

/-- The base persistence parameters of WeaviatePersistor. -/
structure PersistorParams where
  collection_name : Option String
  tenant_name : Option String

/-- Python truthiness fallback a or b over optional strings: None and the
empty string fall through to b. -/
def orPy (a b : Option String) : Option String :=
  match a with
  | some s => if s = "" then b else some s
  | none => b

/-- Embeds WeaviatePersistor.compile_collection_tenant_names: call arguments
win over base configuration under Python or semantics, and a collection
name that resolves to None is rejected. -/
def compile_collection_tenant_names (base : PersistorParams)
    (collection_name tenant_name : Option String) :
    Except WErr (String × Option String) :=
  let c := orPy collection_name base.collection_name
  let t := orPy tenant_name base.tenant_name
  match c with
  | none => .error .valueErrorCollectionRequired
  | some cn => .ok (cn, t)

/-- One write against the backend data store. -/
inductive WriteOp where
  | insert
  | replace
deriving DecidableEq, Repr

/-- The record written for one chunk: its property record, its reference
record (the parent entry, when the chunk has a truthy parent_id) and its
vector. -/
structure WRecord where
  properties : PropRecord
  references : Option (List (String × String))
  vector : Option (List Int)

/-- The per-id data store of the scoped collection, insertion ordered. -/
abbrev CollectionData := List (String × WRecord)

/-- The property record persisted for a chunk by persist_document. -/
def chunkProperties (document : ChunkedDocument) (chunk : DocumentChunk) : PropRecord :=
  { filename := document.filename,
    content := chunk.content,
    original_span_start := chunk.original_span.1,
    original_span_end := chunk.original_span.2,
    hierarchy_level := chunk.hierarchy_level,
    document_metadata := document.document_metadata }

/-- The reference record persisted for a chunk: the parent entry when
parent_id is truthy (not None and not empty), else None. -/
def chunkReferences (chunk : DocumentChunk) : Option (List (String × String)) :=
  match chunk.parent_id with
  | some p => if p = "" then none else some [("parent", p)]
  | none => none

/-- The full record written for a chunk. -/
def chunkRecord (document : ChunkedDocument) (chunk : DocumentChunk) : WRecord :=
  { properties := chunkProperties document chunk,
    references := chunkReferences chunk,
    vector := chunk.embedding }

/-- In-place replacement of the record stored under an id. -/
def replaceData (data : CollectionData) (id : String) (record : WRecord) :
    CollectionData :=
  data.map (fun p => if p.1 = id then (id, record) else p)

/-- The mutable state threaded through the write loop of persist_document:
the scoped data store, the two counters, and the trace of writes in the
order the code issues them. -/
structure PersistState where
  data : CollectionData
  nr_inserted : Nat
  nr_replaced : Nat
  trace : List (WriteOp × String × WRecord)

/-- One iteration of the inner chunk loop of persist_document: existence
check on the chunk id, then insert or replace. -/
def persistChunk (document : ChunkedDocument) (st : PersistState)
    (chunk : DocumentChunk) : PersistState :=
  let record := chunkRecord document chunk
  if (st.data.lookup chunk.chunk_id).isSome then
    { data := replaceData st.data chunk.chunk_id record,
      nr_inserted := st.nr_inserted,
      nr_replaced := st.nr_replaced + 1,
      trace := st.trace ++ [(.replace, chunk.chunk_id, record)] }
  else
    { data := st.data ++ [(chunk.chunk_id, record)],
      nr_inserted := st.nr_inserted + 1,
      nr_replaced := st.nr_replaced,
      trace := st.trace ++ [(.insert, chunk.chunk_id, record)] }

/-- The inner chunk loop over one hierarchy-level group. -/
def persistChunkList (document : ChunkedDocument) (st : PersistState) :
    List DocumentChunk → PersistState
  | [] => st
  | c :: cs => persistChunkList document (persistChunk document st c) cs

/-- The outer loop of persist_document over the grouped chunk index, in the
order the groups sit in the index. -/
def persistGroups (document : ChunkedDocument) (st : PersistState) :
    List (Int × List DocumentChunk) → PersistState
  | [] => st
  | g :: rest => persistGroups document (persistChunkList document st g.2) rest

/-- One step of building the defaultdict chunk index: append the chunk to the
group of its hierarchy level, or open a new group at the end of the index
when the level appears for the first time. -/
def addChunkToIndex (idx : List (Int × List DocumentChunk)) (c : DocumentChunk) :
    List (Int × List DocumentChunk) :=
  match idx with
  | [] => [(c.hierarchy_level, [c])]
  | g :: rest =>
    if g.1 = c.hierarchy_level then (g.1, g.2 ++ [c]) :: rest
    else g :: addChunkToIndex rest c

/-- The defaultdict chunk index of persist_document: groups keyed by
hierarchy level, keys in first-encounter order of the document chunk
sequence (Python dict iteration order), chunks of a group in document
order. -/
def chunk_index (chunks : List DocumentChunk) : List (Int × List DocumentChunk) :=
  chunks.foldl addChunkToIndex []

/-- The outcome of persist_document: the resolved names, the two counters and
the final backend state with its write trace. -/
structure PersistResult where
  collection_name : String
  tenant_name : Option String
  nr_inserted : Nat
  nr_replaced : Nat
  final : PersistState

/-- Embeds WeaviatePersistor.persist_document from persist.py: resolve the
collection and tenant names, group the chunks by hierarchy level into the
defaultdict index, fail when a requested tenant does not exist, then walk
the groups in index order and insert or replace each chunk by existence of
its id. The tenants argument models collection.tenants.exists and data0
the scoped data store. -/
def persist_document (base : PersistorParams) (tenants : List String)
    (data0 : CollectionData) (document : ChunkedDocument)
    (collection_name tenant_name : Option String) :
    Except WErr PersistResult :=
  match compile_collection_tenant_names base collection_name tenant_name with
  | .error e => .error e
  | .ok (cn, tn) =>
    let idx := chunk_index document.chunks
    match ((match tn with
            | some t =>
              if tenants.contains t then .ok ()
              else .error (.keyErrorTenant t)
            | none => .ok ()) : Except WErr Unit) with
    | .error e => .error e
    | .ok _ =>
      let st := persistGroups document ⟨data0, 0, 0, []⟩ idx
      .ok { collection_name := cn, tenant_name := tn,
            nr_inserted := st.nr_inserted, nr_replaced := st.nr_replaced,
            final := st }

/-- The filename of a result pair. -/
def pairFilename (p : WObject × DocumentChunk) : String :=
  p.1.properties.filename

/-- The reassembly invariant of the document index of
compile_chunked_documents, relative to the list of already processed
results paired with their chunks: the index filenames are the processed
filenames deduplicated in first-seen order, each document carries exactly
the chunks of its filename in processed order, and its metadata is the one
of the first processed result of that filename. -/
def DocsInv (ps : List (WObject × DocumentChunk)) (idx : List ChunkedDocument) : Prop :=
  idx.map (fun d => d.filename) =
    firstSeenBy (fun s => s) [] (ps.map pairFilename)
  ∧ ∀ d ∈ idx,
      d.chunks = (ps.filter (fun p => pairFilename p = d.filename)).map (fun p => p.2)
      ∧ ∃ r, ps.find? (fun p => pairFilename p = d.filename) = some r
          ∧ d.document_metadata = r.1.properties.document_metadata
/-- A property record for concrete example inputs. -/
def sampleProps (f : String) (lvl : Int) (md : Meta) : PropRecord :=
  { filename := f, content := "c", original_span_start := 0, original_span_end := 1,
    hierarchy_level := lvl, document_metadata := md }

/-- Concrete parent object P1 of the parent-strategy example. -/
def objP1 : WObject := .mk "P1" (sampleProps "f" 0 []) none none

/-- Concrete parent object P2 of the parent-strategy example. -/
def objP2 : WObject := .mk "P2" (sampleProps "f" 0 []) none none

/-- Concrete child referencing P1. -/
def objChild1 : WObject := .mk "child1" (sampleProps "f" 1 []) (some [("parent", [objP1])]) none

/-- Concrete second child referencing P1. -/
def objChild2 : WObject := .mk "child2" (sampleProps "f" 1 []) (some [("parent", [objP1])]) none

/-- Concrete child referencing P2. -/
def objChild3 : WObject := .mk "child3" (sampleProps "f" 1 []) (some [("parent", [objP2])]) none

/-- A matched root chunk whose references mapping is absent (Python None). -/
def objNoRefs : WObject := .mk "root" (sampleProps "f" 0 []) none none

/-- A result whose references mapping is present but lacks the parent key. -/
def objEmptyRefs : WObject := .mk "root2" (sampleProps "f" 0 []) (some []) none

/-- First reassembly example result, filename doc.txt, level 0. -/
def objR1 : WObject := .mk "a1" (sampleProps "doc.txt" 0 [("source", .str "pdf")]) none none

/-- Second reassembly example result, same filename, level 1. -/
def objR2 : WObject := .mk "a2" (sampleProps "doc.txt" 1 [("source", .str "pdf")]) none none

/-- Root chunk at level 0 of the persistence-order example. -/
def chunkRootC2 : DocumentChunk := ⟨"root", "r", (0, 5), 0, none, none⟩

/-- Child chunk at level 1 of the persistence-order example, referencing the
root chunk as its parent. -/
def chunkChildC2 : DocumentChunk := ⟨"child", "ch", (0, 2), 1, some "root", none⟩

/-- A document listing the level-1 chunk before its level-0 parent. -/
def c2doc : ChunkedDocument := ⟨"f.txt", [], [chunkChildC2, chunkRootC2]⟩

/-- A document whose metadata key starts with a digit and ends with an
exclamation mark. -/
def c1doc : ChunkedDocument :=
  ⟨"f.txt", [("1st-name!", .str "v")], [⟨"k1", "c", (0, 1), 0, none, none⟩]⟩

/-- A document carrying an empty metadata key. -/
def c1docEmptyKey : ChunkedDocument :=
  ⟨"f.txt", [("", .str "v")], [⟨"k2", "c", (0, 1), 0, none, none⟩]⟩

/-- A two-chunk document with distinct chunk ids for the idempotence
example. -/
def c8doc : ChunkedDocument :=
  ⟨"g.txt", [], [⟨"id0", "a", (0, 1), 0, none, none⟩,
                 ⟨"id1", "b", (1, 2), 1, some "id0", none⟩]⟩

/-- Merged search parameters with a parent strategy configured. -/
def qpParent : SearchParams :=
  ⟨some "C", none, some "replace", none, none, none, none, false, none, none⟩

/-- Merged search parameters with a negative operation level configured. -/
def qpLevel : SearchParams :=
  ⟨some "C", none, none, some (-1), none, none, none, false, none, none⟩

theorem create_attribute_filter_u_eq {V : Type} (key : String) (value : V) :
    create_attribute_filter_u key value =
      Except.map (fun op => FilterExpr.leaf (keyAttrName key) op value)
        (tokenOpU (keyToken "==" key)) := by
  unfold create_attribute_filter_u keyAttrName keyToken tokenOpU
  rcases h : rsplit1 key with _ | ⟨n, t⟩ <;> simp only [] <;> split_ifs <;> rfl

theorem create_attribute_filter_s_eq {V : Type} (key : String) (value : V) :
    create_attribute_filter_s key value =
      Except.map (fun op => FilterExpr.leaf (keyAttrName key) op value)
        (tokenOpS (keyToken "=" key)) := by
  unfold create_attribute_filter_s keyAttrName keyToken tokenOpS
  rcases h : rsplit1 key with _ | ⟨n, t⟩ <;> simp only [] <;> split_ifs <;> rfl

theorem compileLeaves_length {V : Type} (caf : String → V → Except WErr (FilterExpr V)) :
    ∀ (m : List (String × V)) (fs : List (FilterExpr V)),
      compileLeaves caf m = .ok fs → fs.length = m.length := by
  intro m
  induction m with
  | nil => intro fs h; cases h; rfl
  | cons kv rest ih =>
    intro fs h
    unfold compileLeaves at h
    cases hc : caf kv.1 kv.2 with
    | error e => rw [hc] at h; cases h
    | ok f =>
      rw [hc] at h
      cases hr : compileLeaves caf rest with
      | error e => rw [hr] at h; cases h
      | ok fs' =>
        rw [hr] at h
        cases h
        simp [ih fs' hr]

theorem seenAfterBy_mem {α : Type} (key : α → String) :
    ∀ (l : List α) (seen : List String) (x : String),
      x ∈ seenAfterBy key seen l ↔ x ∈ seen ∨ x ∈ l.map key := by
  intro l
  induction l with
  | nil => intro seen x; simp [seenAfterBy]
  | cons a as ih =>
    intro seen x
    unfold seenAfterBy
    by_cases hc : key a ∈ seen
    · rw [if_pos (by simpa using hc), ih]
      simp only [List.map_cons, List.mem_cons]
      constructor
      · rintro (h | h)
        · exact Or.inl h
        · exact Or.inr (Or.inr h)
      · rintro (h | h | h)
        · exact Or.inl h
        · exact Or.inl (h ▸ hc)
        · exact Or.inr h
    · rw [if_neg (by simpa using hc), ih]
      simp only [List.mem_cons, List.map_cons]
      tauto

theorem addParents_eq :
    ∀ (ps : List WObject) (seen : List String) (acc : List WObject),
      addParents seen acc ps =
        (seenAfterBy WObject.uuid seen ps, acc ++ firstSeenBy WObject.uuid seen ps) := by
  intro ps
  induction ps with
  | nil => intro seen acc; simp [addParents, seenAfterBy, firstSeenBy]
  | cons p rest ih =>
    intro seen acc
    unfold addParents seenAfterBy firstSeenBy
    by_cases hc : p.uuid ∈ seen
    · rw [if_pos (by simpa using hc), if_pos (by simpa using hc),
          if_pos (by simpa using hc), ih]
    · rw [if_neg (by simpa using hc), if_neg (by simpa using hc),
          if_neg (by simpa using hc), ih]
      simp

theorem firstSeenBy_append {α : Type} (key : α → String) :
    ∀ (a : List α) (seen : List String) (b : List α),
      firstSeenBy key seen (a ++ b) =
        firstSeenBy key seen a ++ firstSeenBy key (seenAfterBy key seen a) b := by
  intro a
  induction a with
  | nil => intro seen b; simp [firstSeenBy, seenAfterBy]
  | cons x xs ih =>
    intro seen b
    rw [List.cons_append]
    simp only [firstSeenBy, seenAfterBy]
    by_cases hc : key x ∈ seen
    · rw [if_pos (by simpa using hc), if_pos (by simpa using hc),
          if_pos (by simpa using hc), ih]
    · rw [if_neg (by simpa using hc), if_neg (by simpa using hc),
          if_neg (by simpa using hc), ih]
      simp

theorem replaceParents_spec :
    ∀ (cs : List WObject) (pss : List (List WObject)),
      parentsOf cs = .ok pss →
      ∀ (seen : List String) (parents : List WObject),
        replaceParents seen parents cs =
          .ok (parents ++ firstSeenBy WObject.uuid seen pss.flatten) := by
  intro cs
  induction cs with
  | nil =>
    intro pss h seen parents
    cases h
    simp [replaceParents, firstSeenBy]
  | cons c rest ih =>
    intro pss h seen parents
    unfold parentsOf at h
    cases hg : getParents c with
    | error e => rw [hg] at h; cases h
    | ok ps =>
      rw [hg] at h
      cases hr : parentsOf rest with
      | error e => rw [hr] at h; cases h
      | ok pss' =>
        rw [hr] at h
        cases h
        unfold replaceParents
        rw [hg]
        simp only [addParents_eq]
        rw [ih pss' hr]
        simp only [List.flatten_cons, firstSeenBy_append]
        simp [List.append_assoc]

theorem includeParents_isOk :
    ∀ (cs : List WObject) (pss : List (List WObject)),
      parentsOf cs = .ok pss →
      ∀ (seen : List String) (combined : List WObject),
        ∃ out, includeParents seen combined cs = .ok out := by
  intro cs
  induction cs with
  | nil => intro pss h seen combined; exact ⟨combined, rfl⟩
  | cons c rest ih =>
    intro pss h seen combined
    unfold parentsOf at h
    cases hg : getParents c with
    | error e => rw [hg] at h; cases h
    | ok ps =>
      rw [hg] at h
      cases hr : parentsOf rest with
      | error e => rw [hr] at h; cases h
      | ok pss' =>
        unfold includeParents
        rw [hg]
        exact ih pss' hr _ _

theorem firstSeenBy_nodup {α : Type} (key : α → String) :
    ∀ (l : List α) (seen : List String),
      (List.map key (firstSeenBy key seen l)).Nodup ∧
      ∀ x ∈ List.map key (firstSeenBy key seen l), x ∉ seen := by
  intro l
  induction l with
  | nil => intro seen; simp [firstSeenBy]
  | cons a as ih =>
    intro seen
    unfold firstSeenBy
    by_cases hc : key a ∈ seen
    · rw [if_pos (by simpa using hc)]
      exact ih seen
    · rw [if_neg (by simpa using hc)]
      obtain ⟨hnd, hns⟩ := ih (key a :: seen)
      refine ⟨?_, ?_⟩
      · simp only [List.map_cons, List.nodup_cons]
        exact ⟨fun hmem => (hns _ hmem) (List.mem_cons_self _ _), hnd⟩
      · intro x hx
        simp only [List.map_cons, List.mem_cons] at hx
        rcases hx with rfl | hx
        · exact hc
        · intro hxs
          exact hns x hx (List.mem_cons_of_mem _ hxs)

theorem firstSeenBy_mem_keys {α : Type} (key : α → String) :
    ∀ (l : List α) (seen : List String) (x : String),
      x ∈ List.map key (firstSeenBy key seen l) ↔ x ∉ seen ∧ x ∈ List.map key l := by
  intro l
  induction l with
  | nil => intro seen x; simp [firstSeenBy]
  | cons a as ih =>
    intro seen x
    unfold firstSeenBy
    by_cases hc : key a ∈ seen
    · rw [if_pos (by simpa using hc), ih]
      simp only [List.map_cons, List.mem_cons]
      constructor
      · rintro ⟨h1, h2⟩; exact ⟨h1, Or.inr h2⟩
      · rintro ⟨h1, h2 | h2⟩
        · exact absurd (h2 ▸ hc) h1
        · exact ⟨h1, h2⟩
    · rw [if_neg (by simpa using hc)]
      simp only [List.map_cons, List.mem_cons, ih, List.mem_cons, not_or]
      constructor
      · rintro (rfl | ⟨⟨h1, h2⟩, h3⟩)
        · exact ⟨hc, Or.inl rfl⟩
        · exact ⟨h2, Or.inr h3⟩
      · rintro ⟨h1, rfl | h2⟩
        · exact Or.inl rfl
        · by_cases hx : x = key a
          · exact Or.inl hx
          · exact Or.inr ⟨⟨hx, h1⟩, h2⟩

theorem docsInv_nil : DocsInv [] [] := by
  constructor
  · simp [firstSeenBy]
  · intro d hd; cases hd

theorem docsInv_step (ps : List (WObject × DocumentChunk))
    (idx : List ChunkedDocument) (o : WObject) (c : DocumentChunk)
    (h : DocsInv ps idx) :
    DocsInv (ps ++ [(o, c)])
      (addChunkToDocs idx o.properties.filename o.properties.document_metadata c) := by
  obtain ⟨hname, hdocs⟩ := h
  set f := o.properties.filename with hf
  have hfn_mem : f ∈ idx.map (fun d => d.filename) ↔ f ∈ ps.map pairFilename := by
    have hfk := firstSeenBy_mem_keys (fun s => s) (ps.map pairFilename) [] f
    simp only [List.map_id'] at hfk
    rw [hname, hfk]
    simp
  have hmap_pair : (ps ++ [(o, c)]).map pairFilename = ps.map pairFilename ++ [f] := by
    simp [pairFilename]
  by_cases hin : f ∈ idx.map (fun d => d.filename)
  · -- the filename already has a document: the chunk is appended in place
    have hany : idx.any (fun d => d.filename = f) = true := by
      simp only [List.any_eq_true, decide_eq_true_eq]
      obtain ⟨d, hd, hdf⟩ := List.mem_map.mp hin
      exact ⟨d, hd, hdf⟩
    unfold addChunkToDocs
    rw [if_pos hany]
    constructor
    · have hpres : (idx.map (fun d =>
          if d.filename = f then { d with chunks := d.chunks ++ [c] } else d)).map
            (fun d => d.filename) = idx.map (fun d => d.filename) := by
        rw [List.map_map]
        apply List.map_congr_left
        intro d _
        by_cases hdf : d.filename = f <;> simp [hdf]
      rw [hpres, hname, hmap_pair, firstSeenBy_append]
      have : f ∈ seenAfterBy (fun s => s) [] (ps.map pairFilename) := by
        rw [seenAfterBy_mem]
        simp only [List.mem_nil_iff, false_or, List.map_id']
        exact hfn_mem.mp hin
      simp [firstSeenBy, this]
    · intro d' hd'
      obtain ⟨d, hd, hdeq⟩ := List.mem_map.mp hd'
      obtain ⟨hchunks, r, hr, hmd⟩ := hdocs d hd
      by_cases hdf : d.filename = f
      · rw [if_pos (by simpa using hdf)] at hdeq
        subst hdeq
        refine ⟨?_, r, ?_, hmd⟩
        · simp only []
          rw [List.filter_append, List.map_append, ← hchunks]
          congr 1
          rw [List.filter_cons_of_pos (by simp [pairFilename, hdf]),
              List.filter_nil]
          rfl
        · simp only []
          rw [List.find?_append, hr]
          rfl
      · rw [if_neg (by simpa using hdf)] at hdeq
        subst hdeq
        refine ⟨?_, r, ?_, hmd⟩
        · rw [List.filter_append,
              List.filter_cons_of_neg (by simp [pairFilename]; exact fun hx => hdf (hx.symm ▸ rfl)),
              List.filter_nil, List.append_nil, hchunks]
        · rw [List.find?_append, hr]
          rfl
  · -- first occurrence of the filename: a new document is created
    have hany : idx.any (fun d => d.filename = f) = false := by
      rw [← Bool.not_eq_true]
      simp only [List.any_eq_true, decide_eq_true_eq]
      rintro ⟨d, hd, hdf⟩
      exact hin (List.mem_map.mpr ⟨d, hd, hdf⟩)
    have hfps : f ∉ ps.map pairFilename := fun hmem => hin (hfn_mem.mpr hmem)
    unfold addChunkToDocs
    rw [hany]
    simp only [Bool.false_eq_true, if_false]
    constructor
    · rw [List.map_append, hname, hmap_pair, firstSeenBy_append]
      have : f ∉ seenAfterBy (fun s => s) [] (ps.map pairFilename) := by
        rw [seenAfterBy_mem]
        simp only [List.mem_nil_iff, false_or, List.map_id']
        exact hfps
      simp [firstSeenBy, this]
    · intro d' hd'
      rcases List.mem_append.mp hd' with hd | hnew
      · obtain ⟨hchunks, r, hr, hmd⟩ := hdocs d' hd
        have hdf : d'.filename ≠ f := fun hx =>
          hin (List.mem_map.mpr ⟨d', hd, hx⟩)
        refine ⟨?_, r, ?_, hmd⟩
        · rw [List.filter_append,
              List.filter_cons_of_neg (by simp [pairFilename]; exact fun hx => hdf (hx.symm ▸ rfl)),
              List.filter_nil, List.append_nil, hchunks]
        · rw [List.find?_append, hr]
          rfl
      · have hd'eq : d' = { filename := f, document_metadata := o.properties.document_metadata,
                            chunks := [c] } := by
          simpa using hnew
        subst hd'eq
        have hfilter : ps.filter (fun p => pairFilename p = f) = [] := by
          rw [List.filter_eq_nil_iff]
          intro p hp
          simp only [decide_eq_true_eq]
          intro hpf
          exact hfps (List.mem_map.mpr ⟨p, hp, hpf⟩)
        have hfind : ps.find? (fun p => pairFilename p = f) = none := by
          rw [List.find?_eq_none]
          intro p hp
          simp only [decide_eq_true_eq]
          intro hpf
          exact hfps (List.mem_map.mpr ⟨p, hp, hpf⟩)
        refine ⟨?_, (o, c), ?_, rfl⟩
        · simp only []
          rw [List.filter_append, hfilter]
          rw [List.filter_cons_of_pos (by simp [pairFilename]), List.filter_nil]
          rfl
        · simp only []
          rw [List.find?_append, hfind, Option.none_or]
          rw [List.find?_cons_of_pos _ (by simp [pairFilename])]

theorem chunksOf_cons (nv : String) (o : WObject) (os : List WObject)
    (out : List DocumentChunk) (h : chunksOf nv (o :: os) = .ok out) :
    ∃ c cs, mkChunk nv o = .ok c ∧ chunksOf nv os = .ok cs ∧ out = c :: cs := by
  unfold chunksOf at h
  cases hm : mkChunk nv o with
  | error e => rw [hm] at h; cases h
  | ok c =>
    rw [hm] at h
    cases hr : chunksOf nv os with
    | error e => rw [hr] at h; cases h
    | ok cs =>
      rw [hr] at h
      cases h
      exact ⟨c, cs, rfl, rfl, rfl⟩

theorem chunksOf_length (nv : String) :
    ∀ (os : List WObject) (cs : List DocumentChunk),
      chunksOf nv os = .ok cs → cs.length = os.length := by
  intro os
  induction os with
  | nil => intro cs h; cases h; rfl
  | cons o rest ih =>
    intro cs h
    obtain ⟨c, cs', _, hr, rfl⟩ := chunksOf_cons nv o rest cs h
    simp [ih cs' hr]

theorem compileDocsGo_inv (nv : String) :
    ∀ (os : List WObject) (cs : List DocumentChunk),
      chunksOf nv os = .ok cs →
      ∀ (ps : List (WObject × DocumentChunk)) (idx : List ChunkedDocument),
        DocsInv ps idx →
        ∃ docs, compileDocsGo nv os idx = .ok docs ∧ DocsInv (ps ++ os.zip cs) docs := by
  intro os
  induction os with
  | nil =>
    intro cs h ps idx hinv
    cases h
    exact ⟨idx, rfl, by simpa using hinv⟩
  | cons o rest ih =>
    intro cs h ps idx hinv
    obtain ⟨c, cs', hm, hr, rfl⟩ := chunksOf_cons nv o rest cs h
    have hstep := docsInv_step ps idx o c hinv
    obtain ⟨docs, hgo, hinv'⟩ := ih cs' hr (ps ++ [(o, c)]) _ hstep
    refine ⟨docs, ?_, ?_⟩
    · unfold compileDocsGo
      rw [hm]
      exact hgo
    · rw [List.append_assoc] at hinv'
      simpa using hinv'

theorem find?_zip_fst {α β : Type} (p : α → Bool) :
    ∀ (l1 : List α) (l2 : List β), l1.length = l2.length →
      ((l1.zip l2).find? (fun x => p x.1)).map Prod.fst = l1.find? p := by
  intro l1
  induction l1 with
  | nil => intro l2 h; simp
  | cons a as ih =>
    intro l2 h
    cases l2 with
    | nil => cases h
    | cons b bs =>
      rw [List.zip_cons_cons]
      by_cases hp : p a
      · rw [List.find?_cons_of_pos _ (by simpa using hp),
            List.find?_cons_of_pos _ hp]
        rfl
      · rw [List.find?_cons_of_neg _ (by simpa using hp),
            List.find?_cons_of_neg _ hp]
        exact ih bs (by simpa using h)

theorem lookup_eq_none_iff :
    ∀ (data : CollectionData) (id : String),
      data.lookup id = none ↔ id ∉ data.map Prod.fst := by
  intro data
  induction data with
  | nil => intro id; simp
  | cons p rest ih =>
    intro id
    by_cases hp : id = p.1
    · subst hp
      simp [List.lookup]
    · rw [List.map_cons]
      have : (id == p.1) = false := by simpa using hp
      simp only [List.lookup, this]
      rw [ih]
      simp [hp]

theorem replaceData_keys (data : CollectionData) (id : String) (record : WRecord) :
    (replaceData data id record).map Prod.fst = data.map Prod.fst := by
  unfold replaceData
  rw [List.map_map]
  apply List.map_congr_left
  intro p _
  by_cases hp : p.1 = id <;> simp [hp]

theorem persistChunkList_append (document : ChunkedDocument) :
    ∀ (a b : List DocumentChunk) (st : PersistState),
      persistChunkList document st (a ++ b) =
        persistChunkList document (persistChunkList document st a) b := by
  intro a
  induction a with
  | nil => intro b st; rfl
  | cons c cs ih =>
    intro b st
    rw [List.cons_append]
    show persistChunkList document (persistChunk document st c) (cs ++ b) =
      persistChunkList document (persistChunkList document (persistChunk document st c) cs) b
    exact ih b (persistChunk document st c)

theorem persistGroups_eq_flatten (document : ChunkedDocument) :
    ∀ (groups : List (Int × List DocumentChunk)) (st : PersistState),
      persistGroups document st groups =
        persistChunkList document st ((groups.map Prod.snd).flatten) := by
  intro groups
  induction groups with
  | nil => intro st; rfl
  | cons g rest ih =>
    intro st
    unfold persistGroups
    rw [ih, List.map_cons, List.flatten_cons, persistChunkList_append]

theorem addChunkToIndex_flatten (c : DocumentChunk) :
    ∀ (idx : List (Int × List DocumentChunk)),
      (((addChunkToIndex idx c).map Prod.snd).flatten).Perm
        (((idx.map Prod.snd).flatten) ++ [c]) := by
  intro idx
  induction idx with
  | nil => simp [addChunkToIndex]
  | cons g rest ih =>
    unfold addChunkToIndex
    by_cases hg : g.1 = c.hierarchy_level
    · rw [if_pos hg]
      simp only [List.map_cons, List.flatten_cons]
      rw [List.append_assoc, List.append_assoc]
      exact List.Perm.append_left g.2 (List.perm_append_comm)
    · rw [if_neg hg]
      simp only [List.map_cons, List.flatten_cons]
      rw [List.append_assoc]
      exact List.Perm.append_left g.2 ih

theorem chunk_index_flatten (chunks : List DocumentChunk) :
    (((chunk_index chunks).map Prod.snd).flatten).Perm chunks := by
  suffices h : ∀ (cs : List DocumentChunk) (idx : List (Int × List DocumentChunk)),
      (((cs.foldl addChunkToIndex idx).map Prod.snd).flatten).Perm
        ((idx.map Prod.snd).flatten ++ cs) by
    have := h chunks []
    simpa [chunk_index] using this
  intro cs
  induction cs with
  | nil => intro idx; simp
  | cons c rest ih =>
    intro idx
    rw [List.foldl_cons]
    refine (ih (addChunkToIndex idx c)).trans ?_
    refine (List.Perm.append_right rest (addChunkToIndex_flatten c idx)).trans ?_
    rw [List.append_assoc]
    exact List.Perm.append_left _ (by simp)

theorem persistChunkList_inserts (document : ChunkedDocument) :
    ∀ (cs : List DocumentChunk) (st : PersistState),
      (cs.map (fun c => c.chunk_id)).Nodup →
      (∀ c ∈ cs, c.chunk_id ∉ st.data.map Prod.fst) →
      persistChunkList document st cs =
        { data := st.data ++ cs.map (fun c => (c.chunk_id, chunkRecord document c)),
          nr_inserted := st.nr_inserted + cs.length,
          nr_replaced := st.nr_replaced,
          trace := st.trace ++
            cs.map (fun c => (WriteOp.insert, c.chunk_id, chunkRecord document c)) } := by
  intro cs
  induction cs with
  | nil => intro st _ _; simp [persistChunkList]
  | cons c rest ih =>
    intro st hnd hdis
    have hid : c.chunk_id ∉ st.data.map Prod.fst := hdis c (List.mem_cons_self _ _)
    have hlk : st.data.lookup c.chunk_id = none := (lookup_eq_none_iff _ _).mpr hid
    unfold persistChunkList persistChunk
    rw [hlk]
    simp only [Option.isSome_none, Bool.false_eq_true, if_false]
    have hnd2 : (rest.map (fun c => c.chunk_id)).Nodup := by
      simp only [List.map_cons, List.nodup_cons] at hnd
      exact hnd.2
    have hdis2 : ∀ c' ∈ rest,
        c'.chunk_id ∉
          (st.data ++ [(c.chunk_id, chunkRecord document c)]).map Prod.fst := by
      intro c' hc'
      simp only [List.map_append, List.mem_append, List.map_cons, List.map_nil,
                 List.mem_singleton, not_or]
      refine ⟨hdis c' (List.mem_cons_of_mem _ hc'), ?_⟩
      intro he
      simp only [List.map_cons, List.nodup_cons] at hnd
      exact hnd.1 (he ▸ List.mem_map_of_mem (fun x => x.chunk_id) hc')
    rw [ih _ hnd2 hdis2]
    simp only [List.map_cons, List.length_cons, PersistState.mk.injEq]
    refine ⟨by simp, by omega, by simp⟩

theorem persistChunkList_replaces (document : ChunkedDocument) :
    ∀ (cs : List DocumentChunk) (st : PersistState),
      (∀ c ∈ cs, c.chunk_id ∈ st.data.map Prod.fst) →
      ∃ data2,
        persistChunkList document st cs =
          { data := data2,
            nr_inserted := st.nr_inserted,
            nr_replaced := st.nr_replaced + cs.length,
            trace := st.trace ++
              cs.map (fun c => (WriteOp.replace, c.chunk_id, chunkRecord document c)) } ∧
        data2.map Prod.fst = st.data.map Prod.fst := by
  intro cs
  induction cs with
  | nil => intro st _; exact ⟨st.data, by simp [persistChunkList], rfl⟩
  | cons c rest ih =>
    intro st hmem
    have hid : c.chunk_id ∈ st.data.map Prod.fst := hmem c (List.mem_cons_self _ _)
    have hsome : (st.data.lookup c.chunk_id).isSome = true := by
      cases h : st.data.lookup c.chunk_id with
      | none => exact absurd hid ((lookup_eq_none_iff st.data c.chunk_id).mp h)
      | some v => rfl
    unfold persistChunkList persistChunk
    rw [if_pos hsome]
    obtain ⟨data2, heq, hkeys⟩ := ih
      { data := replaceData st.data c.chunk_id (chunkRecord document c),
        nr_inserted := st.nr_inserted,
        nr_replaced := st.nr_replaced + 1,
        trace := st.trace ++ [(WriteOp.replace, c.chunk_id, chunkRecord document c)] }
      (by
        intro c' hc'
        simp only [replaceData_keys]
        exact hmem c' (List.mem_cons_of_mem _ hc'))
    refine ⟨data2, ?_, ?_⟩
    · rw [heq]
      simp only [PersistState.mk.injEq]
      refine ⟨trivial, trivial, ?_, ?_⟩
      · show st.nr_replaced + 1 + rest.length = st.nr_replaced + (c :: rest).length
        simp only [List.length_cons]
        omega
      · show st.trace ++ [(WriteOp.replace, c.chunk_id, chunkRecord document c)] ++
            List.map (fun c => (WriteOp.replace, c.chunk_id, chunkRecord document c)) rest =
          st.trace ++
            List.map (fun c => (WriteOp.replace, c.chunk_id, chunkRecord document c)) (c :: rest)
        simp
    · rw [hkeys]
      simp [replaceData_keys]

theorem persistChunkList_trace_records (document : ChunkedDocument) :
    ∀ (cs : List DocumentChunk) (st : PersistState),
      ∀ e ∈ (persistChunkList document st cs).trace,
        e ∈ st.trace ∨ ∃ c ∈ cs, e.2.2 = chunkRecord document c := by
  intro cs
  induction cs with
  | nil => intro st e he; exact Or.inl he
  | cons c rest ih =>
    intro st e he
    unfold persistChunkList at he
    rcases ih (persistChunk document st c) e he with hin | ⟨c', hc', hrec⟩
    · unfold persistChunk at hin
      by_cases hs : (st.data.lookup c.chunk_id).isSome = true
      · rw [if_pos hs] at hin
        simp only [List.mem_append, List.mem_singleton] at hin
        rcases hin with h1 | h2
        · exact Or.inl h1
        · exact Or.inr ⟨c, List.mem_cons_self _ _, by rw [h2]⟩
      · rw [if_neg hs] at hin
        simp only [List.mem_append, List.mem_singleton] at hin
        rcases hin with h1 | h2
        · exact Or.inl h1
        · exact Or.inr ⟨c, List.mem_cons_self _ _, by rw [h2]⟩
    · exact Or.inr ⟨c', List.mem_cons_of_mem _ hc', hrec⟩

theorem persist_document_inv (base : PersistorParams) (tenants : List String)
    (data0 : CollectionData) (document : ChunkedDocument)
    (collection_name tenant_name : Option String) (r : PersistResult)
    (h : persist_document base tenants data0 document collection_name tenant_name = .ok r) :
    r.final = persistChunkList document ⟨data0, 0, 0, []⟩
        (((chunk_index document.chunks).map Prod.snd).flatten) ∧
    r.nr_inserted = r.final.nr_inserted ∧ r.nr_replaced = r.final.nr_replaced := by
  unfold persist_document at h
  split at h
  · cases h
  · split at h
    · cases h
    · cases h
      exact ⟨persistGroups_eq_flatten document _ _, rfl, rfl⟩

/-- C3 (amended): for every non-empty having_all mapping the compiled filter
is a conjunction with one leaf per mapping entry, whose operator comes from
the token after the last space of the key (the implicit token when the key
holds no space), and an unrecognised token fails with the invalid-filter
error. The equality row of the table differs from the claim: in the
utils.py variant only the double equal sign means equal (the single one is
rejected), in the search.py variant only the single equal sign means equal
(the double one is rejected); the remaining rows are as claimed. -/
theorem c3_filter_operator_table {V : Type} (m : List (String × V)) (hm : m ≠ []) :
    (compile_filter_u ⟨some (some m), some none⟩ =
       Except.map (fun fs => some (FilterExpr.all_of fs))
         (compileLeaves create_attribute_filter_u m))
  ∧ (∀ (key : String) (value : V), create_attribute_filter_u key value =
       Except.map (fun op => FilterExpr.leaf (keyAttrName key) op value)
         (tokenOpU (keyToken "==" key)))
  ∧ (∀ fs, compileLeaves create_attribute_filter_u m = .ok fs → fs.length = m.length)
  ∧ (compile_filter_s ⟨some (some m), some none⟩ =
       Except.map (fun fs => some (FilterExpr.all_of fs))
         (compileLeaves create_attribute_filter_s m))
  ∧ (∀ (key : String) (value : V), create_attribute_filter_s key value =
       Except.map (fun op => FilterExpr.leaf (keyAttrName key) op value)
         (tokenOpS (keyToken "=" key)))
  ∧ (∀ fs, compileLeaves create_attribute_filter_s m = .ok fs → fs.length = m.length) := by
  refine ⟨?_, fun k v => create_attribute_filter_u_eq k v,
          fun fs => compileLeaves_length _ m fs, ?_,
          fun k v => create_attribute_filter_s_eq k v,
          fun fs => compileLeaves_length _ m fs⟩
  · show compile_filter create_attribute_filter_u _ = _
    unfold compile_filter
    cases hcl : compileLeaves create_attribute_filter_u m with
    | error e => simp [dictGet, hcl, Except.map]
    | ok fs => simp [dictGet, hcl, Except.map]
  · show compile_filter create_attribute_filter_s _ = _
    unfold compile_filter
    cases hcl : compileLeaves create_attribute_filter_s m with
    | error e => simp [dictGet, hcl, Except.map]
    | ok fs => simp [dictGet, hcl, Except.map]

/-- C3 counterexample: the claim states that both the single and the double
equal sign map to the equal operator, yet the utils.py variant rejects the
single equal sign with the invalid-filter error and the search.py variant
rejects the double one. -/
theorem c3_filter_equality_token_cex :
    compile_filter_u (V := Int) ⟨some (some [("price =", 10)]), some none⟩ =
      .error (.invalidFilter "=")
  ∧ compile_filter_s (V := Int) ⟨some (some [("price ==", 10)]), some none⟩ =
      .error (.invalidFilter "==") := ⟨rfl, rfl⟩

/-- C3 witness at a concrete one-entry mapping. -/
theorem c3_filter_operator_table_witness :
    ([(("price <", (10 : Int)))] ≠ []) ∧
    compile_filter_u (V := Int) ⟨some (some [("price <", 10)]), some none⟩ =
      Except.map (fun fs => some (FilterExpr.all_of fs))
        (compileLeaves create_attribute_filter_u [("price <", 10)]) :=
  ⟨by decide, (c3_filter_operator_table [("price <", (10 : Int))] (by decide)).1⟩

/-- C5: compile_filter returns None only when both having entries are present
with value None. With both keys absent the subscript raises KeyError, where
the repository test test_filter_none expects None; with both keys present
but holding empty mappings the result is a non-None conjunction of an
empty all_of and an empty any_of. The query compiler passes a None filter
through as no filtering and still succeeds. -/
theorem c5_compile_filter_empty_behaviour :
    compile_filter_u (V := Int) ⟨some none, some none⟩ = .ok none
  ∧ compile_filter_u (V := Int) ⟨none, none⟩ = .error (.keyErrorParams "having_all")
  ∧ compile_filter_u (V := Int) ⟨some (some []), some (some [])⟩ =
      .ok (some (.all_of [.all_of [], .any_of []]))
  ∧ compile_filter_s (V := Int) ⟨some none, some none⟩ = .ok none
  ∧ create_query_params ⟨some "C", none, none, none, none, none, none,
      false, none, none⟩ 0 =
      .ok { collection_name := "C", tenant_name := none, target_vector := "default",
            qfilter := none, return_references := none } :=
  ⟨rfl, rfl, rfl, rfl, rfl⟩

/-- C4: whenever a parent strategy is configured, the compiled query does
request reference expansion, but for a relation named parent_id, not the
relation parent that the collection schema defines and that the result
readers subscript. Shown at a concrete query with the replace strategy. -/
theorem c4_parent_reference_link_parent_id :
    (∃ q, create_query_params qpParent 0 = .ok q ∧
       q.return_references = some ["parent_id"]) ∧
    (compile_cross_references "C").map (fun rp => rp.name) = ["parent"] ∧
    "parent_id" ∉ (compile_cross_references "C").map (fun rp => rp.name) := by
  refine ⟨⟨_, rfl, rfl⟩, rfl, by decide⟩

/-- C7: when an operation level is configured and the query compiles, the
compiled filter is the equality restriction on hierarchy_level at the
resolved level, AND-combined with the compiled having filter when one was
built; a negative level resolves to the aggregate maximum plus the level
plus one, and a non-negative level is used literally. -/
theorem c7_operation_level_resolution (qp : SearchParams) (aggMax : Int)
    (lvl : Int) (q : CompiledQuery)
    (hlvl : qp.operation_level = some lvl)
    (hok : create_query_params qp aggMax = .ok q) :
    ∃ f0, compile_filter_s ⟨some qp.having_all, some qp.having_any⟩ = .ok f0 ∧
      q.qfilter = some (
        match f0 with
        | some f => .all_of [f, .leaf "hierarchy_level" .equal
            (.int (if lvl < 0 then aggMax + lvl + 1 else lvl))]
        | none => .leaf "hierarchy_level" .equal
            (.int (if lvl < 0 then aggMax + lvl + 1 else lvl))) ∧
      calculate_operation_level aggMax lvl = aggMax + lvl + 1 := by
  unfold create_query_params at hok
  split at hok
  · cases hok
  · rename_i cn hcn
    cases hcf : compile_filter_s ⟨some qp.having_all, some qp.having_any⟩ with
    | error e => rw [hcf] at hok; cases hok
    | ok f0 =>
      rw [hcf] at hok
      rw [hlvl] at hok
      cases hok
      exact ⟨f0, rfl, rfl, rfl⟩

/-- C7 witness: with chunks at levels up to 2 (aggregate maximum 2), the
configured level -1 resolves to 2 and the compiled filter is the equality
on hierarchy_level at 2. -/
theorem c7_operation_level_resolution_witness :
    qpLevel.operation_level = some (-1) ∧
    ∃ q, create_query_params qpLevel 2 = .ok q ∧
      q.qfilter = some (.leaf "hierarchy_level" .equal (.int 2)) := by
  obtain ⟨f0, hf0, hq, hcalc⟩ :=
    c7_operation_level_resolution qpLevel 2 (-1) _ rfl rfl
  have hf : f0 = none := by
    have h2 : (Except.ok none : Except WErr (Option (FilterExpr JValue))) = .ok f0 := hf0
    injection h2 with h2e
    exact h2e.symm
  subst hf
  exact ⟨rfl, _, rfl, hq⟩

/-- C6: with the replace strategy, apply_parent_strategy returns exactly the
parents referenced by the parent relations of the results, in first-seen
order and deduplicated by uuid, discarding all children; the parents listed
for one result are taken in listed order. The hypothesis states that every
result carries a parent reference list, which the subscript requires. -/
theorem c6_parent_replace_first_seen (results : List WObject)
    (pss : List (List WObject)) (h : parentsOf results = .ok pss) :
    apply_parent_strategy (some "replace") results =
      .ok (firstSeenBy WObject.uuid [] pss.flatten) ∧
    (List.map WObject.uuid (firstSeenBy WObject.uuid [] pss.flatten)).Nodup := by
  constructor
  · have hr := replaceParents_spec results pss h [] []
    show (if "replace" = "replace" then replaceParents [] [] results
          else includeParents [] [] results) = _
    rw [if_pos rfl]
    simpa using hr
  · exact (firstSeenBy_nodup WObject.uuid pss.flatten []).1

/-- C6 witness: children child1 and child2 referencing P1 and child3
referencing P2 are replaced by the parents P1 and P2, in first-seen order,
deduplicated. -/
theorem c6_parent_replace_first_seen_witness :
    apply_parent_strategy (some "replace") [objChild1, objChild2, objChild3] =
      .ok [objP1, objP2] := by
  have h := (c6_parent_replace_first_seen [objChild1, objChild2, objChild3]
    [[objP1], [objP1], [objP2]] rfl).1
  exact h

/-- C10: for any non-None strategy, apply_parent_strategy subscripts the
parent entry of every result unconditionally: it is total once every
result carries a parent reference list, while on a result whose references
mapping is absent it fails with the None-subscript error and on a result
whose mapping lacks the parent key it fails with the KeyError, instead of
returning the result unchanged. -/
theorem c10_parent_strategy_requires_references (results : List WObject)
    (s : String) (pss : List (List WObject))
    (h : parentsOf results = .ok pss) :
    (∃ out, apply_parent_strategy (some s) results = .ok out) ∧
    apply_parent_strategy (some "replace") [objNoRefs] = .error .typeErrorNone ∧
    apply_parent_strategy (some "include") [objNoRefs] = .error .typeErrorNone ∧
    apply_parent_strategy (some "replace") [objEmptyRefs] =
      .error (.keyErrorRef "parent") ∧
    apply_parent_strategy (some "include") [objEmptyRefs] =
      .error (.keyErrorRef "parent") := by
  refine ⟨?_, rfl, rfl, rfl, rfl⟩
  show ∃ out, (if s = "replace" then replaceParents [] [] results
               else includeParents [] [] results) = .ok out
  by_cases hs : s = "replace"
  · rw [if_pos hs, replaceParents_spec results pss h [] []]
    exact ⟨_, rfl⟩
  · rw [if_neg hs]
    exact includeParents_isOk results pss h [] []

/-- C10 witness: a result list whose single element carries a parent
reference list is processed successfully by the include branch. -/
theorem c10_parent_strategy_requires_references_witness :
    ∃ out, apply_parent_strategy (some "include") [objChild1] = .ok out :=
  (c10_parent_strategy_requires_references [objChild1] "include" [[objP1]] rfl).1

/-- C9: reassembly groups the ordered results by their filename property: the
output documents are keyed by the distinct filenames in first-seen order,
each document carries exactly the chunks built from the results bearing
its filename in encounter order, and its metadata is copied from the first
result bearing that filename. -/
theorem c9_reassembly_groups_by_filename (results : List WObject)
    (named_vector : String) (cs : List DocumentChunk)
    (h : chunksOf named_vector results = .ok cs) :
    ∃ docs, compile_chunked_documents results named_vector = .ok docs ∧
      docs.map (fun d => d.filename) =
        firstSeenBy (fun s => s) [] (results.map (fun o => o.properties.filename)) ∧
      ∀ d ∈ docs,
        d.chunks = ((results.zip cs).filter
            (fun p => p.1.properties.filename = d.filename)).map (fun p => p.2) ∧
        ∃ r, results.find? (fun o => o.properties.filename = d.filename) = some r ∧
          d.document_metadata = r.properties.document_metadata := by
  obtain ⟨docs, hgo, hinv⟩ :=
    compileDocsGo_inv named_vector results cs h [] [] docsInv_nil
  have hlen : cs.length = results.length := chunksOf_length named_vector results cs h
  refine ⟨docs, hgo, ?_, ?_⟩
  · have h1 := hinv.1
    simp only [List.nil_append] at h1
    rw [h1]
    congr 1
    calc (results.zip cs).map pairFilename
        = ((results.zip cs).map Prod.fst).map (fun o => o.properties.filename) := by
          rw [List.map_map]; rfl
      _ = results.map (fun o => o.properties.filename) := by
          rw [List.map_fst_zip results cs (le_of_eq hlen.symm)]
  · intro d hd
    have h2 := hinv.2 d hd
    simp only [List.nil_append] at h2
    obtain ⟨hchunks, rp, hrp, hmd⟩ := h2
    constructor
    · simpa [pairFilename] using hchunks
    · have hz := find?_zip_fst (fun o => o.properties.filename = d.filename)
        results cs hlen.symm
      simp only [pairFilename] at hrp
      rw [hrp] at hz
      exact ⟨rp.1, hz.symm, hmd⟩

/-- C9 witness: two results sharing the filename doc.txt reassemble into
exactly one document holding both chunks. -/
theorem c9_reassembly_groups_by_filename_witness :
    ∃ docs, compile_chunked_documents [objR1, objR2] "default" = .ok docs ∧
      docs.map (fun d => d.filename) = ["doc.txt"] ∧
      docs.map (fun d => d.chunks.length) = [2] := by
  obtain ⟨docs, hok, hnames, hprops⟩ :=
    c9_reassembly_groups_by_filename [objR1, objR2] "default" _ rfl
  have hnames2 : docs.map (fun d => d.filename) = ["doc.txt"] := hnames
  refine ⟨docs, hok, hnames2, ?_⟩
  rcases docs with _ | ⟨d, _ | ⟨d2, rest⟩⟩
  · cases hnames2
  · have hdf : d.filename = "doc.txt" := by simpa using hnames2
    have hch := (hprops d (by simp)).1
    rw [hdf] at hch
    simp only [List.map_cons, List.map_nil]
    rw [hch]
    rfl
  · simp at hnames2

theorem persist_document_simple (data0 : CollectionData) (document : ChunkedDocument)
    (cn : String) (hcn : cn ≠ "") :
    persist_document ⟨none, none⟩ [] data0 document (some cn) none =
      .ok { collection_name := cn, tenant_name := none,
            nr_inserted := (persistChunkList document ⟨data0, 0, 0, []⟩
              (((chunk_index document.chunks).map Prod.snd).flatten)).nr_inserted,
            nr_replaced := (persistChunkList document ⟨data0, 0, 0, []⟩
              (((chunk_index document.chunks).map Prod.snd).flatten)).nr_replaced,
            final := persistChunkList document ⟨data0, 0, 0, []⟩
              (((chunk_index document.chunks).map Prod.snd).flatten) } := by
  have hname : compile_collection_tenant_names ⟨none, none⟩ (some cn) none =
      .ok (cn, none) := by
    unfold compile_collection_tenant_names orPy
    simp [hcn]
  unfold persist_document
  rw [hname, ← persistGroups_eq_flatten]

/-- C8: persisting a document whose chunk ids are pairwise distinct into an
empty collection inserts every chunk and replaces none; persisting the
same document again replaces every chunk and inserts none, leaving exactly
one record per chunk id. -/
theorem c8_persist_idempotent_counts (document : ChunkedDocument) (cn : String)
    (hcn : cn ≠ "")
    (hids : (document.chunks.map (fun c => c.chunk_id)).Nodup) :
    ∃ r1 r2,
      persist_document ⟨none, none⟩ [] [] document (some cn) none = .ok r1 ∧
      r1.nr_inserted = document.chunks.length ∧ r1.nr_replaced = 0 ∧
      persist_document ⟨none, none⟩ [] r1.final.data document (some cn) none = .ok r2 ∧
      r2.nr_inserted = 0 ∧ r2.nr_replaced = document.chunks.length ∧
      (r2.final.data.map Prod.fst).Perm
        (document.chunks.map (fun c => c.chunk_id)) ∧
      (r2.final.data.map Prod.fst).Nodup := by
  have hperm : (((chunk_index document.chunks).map Prod.snd).flatten).Perm
      document.chunks := chunk_index_flatten document.chunks
  set flat := ((chunk_index document.chunks).map Prod.snd).flatten with hflat
  have hpermids : (flat.map (fun c => c.chunk_id)).Perm
      (document.chunks.map (fun c => c.chunk_id)) := hperm.map _
  have hnd : (flat.map (fun c => c.chunk_id)).Nodup :=
    (List.Perm.nodup_iff hpermids).mpr hids
  have hrun1 := persistChunkList_inserts document flat ⟨[], 0, 0, []⟩ hnd (by simp)
  have h1 := persist_document_simple [] document cn hcn
  rw [← hflat, hrun1] at h1
  set data1 := flat.map (fun c => (c.chunk_id, chunkRecord document c)) with hdata1
  have hkeys1 : data1.map Prod.fst = flat.map (fun c => c.chunk_id) := by
    rw [hdata1, List.map_map]
    rfl
  have hmem2 : ∀ c ∈ flat, c.chunk_id ∈ data1.map Prod.fst := by
    intro c hc
    rw [hkeys1]
    exact List.mem_map_of_mem _ hc
  obtain ⟨data2, hr2eq, hr2keys⟩ :=
    persistChunkList_replaces document flat ⟨data1, 0, 0, []⟩ hmem2
  have h2 := persist_document_simple data1 document cn hcn
  rw [← hflat, hr2eq] at h2
  refine ⟨_, _, h1, ?_, rfl, h2, rfl, ?_, ?_, ?_⟩
  · show 0 + flat.length = document.chunks.length
    simpa using hperm.length_eq
  · show 0 + flat.length = document.chunks.length
    simpa using hperm.length_eq
  · show (data2.map Prod.fst).Perm _
    rw [hr2keys]
    show (data1.map Prod.fst).Perm _
    rw [hkeys1]
    exact hpermids
  · show (data2.map Prod.fst).Nodup
    rw [hr2keys]
    show (data1.map Prod.fst).Nodup
    rw [hkeys1]
    exact hnd

/-- C8 witness at a concrete two-chunk document with distinct chunk ids. -/
theorem c8_persist_idempotent_counts_witness :
    ("C" ≠ "") ∧ ((c8doc.chunks.map (fun c => c.chunk_id)).Nodup) ∧
    (∃ r1 r2,
      persist_document ⟨none, none⟩ [] [] c8doc (some "C") none = .ok r1 ∧
      r1.nr_inserted = c8doc.chunks.length ∧ r1.nr_replaced = 0 ∧
      persist_document ⟨none, none⟩ [] r1.final.data c8doc (some "C") none = .ok r2 ∧
      r2.nr_inserted = 0 ∧ r2.nr_replaced = c8doc.chunks.length ∧
      (r2.final.data.map Prod.fst).Perm (c8doc.chunks.map (fun c => c.chunk_id)) ∧
      (r2.final.data.map Prod.fst).Nodup) :=
  ⟨by decide, by decide, c8_persist_idempotent_counts c8doc "C" (by decide) (by decide)⟩

/-- C2: persist_document walks the hierarchy-level groups in the insertion
order of the defaultdict index, which is the first-encounter order of the
levels in the chunk sequence, not ascending level order: for the document
listing its level-1 chunk before its level-0 parent, the level-1 child is
written before the level-0 root it references, although the code comment
states the chunks are added from top to bottom. -/
theorem c2_persist_group_order_insertion :
    ∃ r, persist_document ⟨none, none⟩ [] [] c2doc (some "C") none = .ok r ∧
      r.final.trace.map (fun e => (e.2.1, e.2.2.properties.hierarchy_level)) =
        [("child", 1), ("root", 0)] ∧
      (chunk_index c2doc.chunks).map Prod.fst = [1, 0] ∧
      chunkChildC2.parent_id = some "root" :=
  ⟨_, rfl, rfl, rfl, rfl⟩

/-- C1 (amended): persist_document performs no metadata key sanitization: the
document_metadata mapping is attached verbatim to the property record of
every chunk it writes. -/
theorem c1_persist_metadata_verbatim (base : PersistorParams)
    (tenants : List String) (data0 : CollectionData) (document : ChunkedDocument)
    (collection_name tenant_name : Option String) (r : PersistResult)
    (h : persist_document base tenants data0 document collection_name tenant_name = .ok r) :
    ∀ e ∈ r.final.trace,
      e.2.2.properties.document_metadata = document.document_metadata := by
  obtain ⟨hfin, -, -⟩ :=
    persist_document_inv base tenants data0 document collection_name tenant_name r h
  intro e he
  rw [hfin] at he
  rcases persistChunkList_trace_records document _ ⟨data0, 0, 0, []⟩ e he with
    h0 | ⟨c, -, hrec⟩
  · exact absurd h0 (List.not_mem_nil e)
  · rw [hrec]
    rfl

/-- C1 witness: at the document carrying the metadata key that the claim says
would be rewritten, the metadata is written verbatim. -/
theorem c1_persist_metadata_verbatim_witness :
    ∃ r, persist_document ⟨none, none⟩ [] [] c1doc (some "C") none = .ok r ∧
      ∀ e ∈ r.final.trace,
        e.2.2.properties.document_metadata = [("1st-name!", JValue.str "v")] := by
  refine ⟨_, rfl, ?_⟩
  intro e he
  exact c1_persist_metadata_verbatim ⟨none, none⟩ [] [] c1doc (some "C") none _ rfl e he

/-- C1 counterexample: the metadata key starting with a digit and ending with
an exclamation mark is written unchanged rather than rewritten to the
underscored form, and the empty metadata key persists successfully instead
of failing with an invalid-metadata-key error. -/
theorem c1_persist_metadata_unsanitized_cex :
    (∃ r, persist_document ⟨none, none⟩ [] [] c1doc (some "C") none = .ok r ∧
       r.final.trace.map (fun e => e.2.2.properties.document_metadata) =
         [[("1st-name!", JValue.str "v")]]) ∧
    (∃ r2, persist_document ⟨none, none⟩ [] [] c1docEmptyKey (some "C") none = .ok r2 ∧
       r2.nr_inserted = 1) :=
  ⟨⟨_, rfl, rfl⟩, ⟨_, rfl, rfl⟩⟩
